import Mathlib

/-!
# Verification of the c2md content-acquisition and normalization core

Shallow embedding of the crawler (`c2md/crawl.py`), the citation engine
(`c2md/citations.py`), the markdown post-processing passes
(`c2md/_postprocess.py`), the date-sorting refiner (`c2md/extract.py`)
and the browser-session lifecycle (`c2md/fetch.py`), together with
theorems settling the specification claims about them.

Strings are manipulated through their underlying character lists so that
every definition is executable by the kernel.  External collaborators
(the HTML parser that yields anchor `href`s, the relative-URL resolver
`urljoin`, the glob matcher `fnmatch`, and the network fetch itself) are
taken as function parameters: the properties verified here are exactly
the ones the source establishes downstream of those collaborators.
-/

namespace C2md

/-! ## Python string helpers -/

/-- Characters stripped by `urllib.parse`: C0 controls and space
(`_WHATWG_C0_CONTROL_OR_SPACE`). -/
def isC0orSpace (c : Char) : Bool := c.toNat ≤ 0x20

/-- The bytes `urllib.parse` removes from anywhere in a URL
(`_UNSAFE_URL_BYTES_TO_REMOVE` = tab, CR, LF). -/
def isUnsafeUrlByte (c : Char) : Bool := c = '\t' ∨ c = '\r' ∨ c = '\n'

/-- ASCII whitespace as recognized by Python's `str.strip()` / `\s`
(restricted to the ASCII range). -/
def isPySpace (c : Char) : Bool :=
  c = ' ' ∨ c = '\t' ∨ c = '\n' ∨ c = '\r' ∨ c = '\x0b' ∨ c = '\x0c'

/-- Python `str.strip()` on a character list (ASCII whitespace). -/
def pyStripChars (cs : List Char) : List Char :=
  ((cs.dropWhile isPySpace).reverse.dropWhile isPySpace).reverse

/-- Python `str.strip()`. -/
def pyStrip (s : String) : String := String.mk (pyStripChars s.data)

/-- Python `str.startswith`. -/
def pyStartsWith (s pre : String) : Bool := pre.data.isPrefixOf s.data

/-- Number of whitespace-separated words, i.e. `len(s.split())`. -/
def countWordsAux : List Char → Bool → Nat
  | [], _ => 0
  | c :: rest, inWord =>
    if isPySpace c then countWordsAux rest false
    else if inWord then countWordsAux rest true
    else countWordsAux rest true + 1

/-- `len(s.split())` for a Python string. -/
def countWords (s : String) : Nat := countWordsAux s.data false

/-- `sep.join(items)` for Python strings. -/
def pyJoin (sep : String) : List String → String
  | [] => ""
  | [s] => s
  | s :: rest => s ++ sep ++ pyJoin sep rest

/-! ## `urllib.parse.urlparse` embedding

Faithful to CPython's `urlsplit`/`urlparse` for the components this
repository reads (`scheme`, `netloc`, `path`, `params`, `query`,
`fragment`); the IPv6-bracket and netloc-unicode validation (which can
only raise on malformed input) is out of scope. -/

structure UrlParts where
  scheme : String
  netloc : String
  path : String
  params : String
  query : String
  fragment : String
deriving DecidableEq, Repr

/-- Characters allowed in a URL scheme (`urllib.parse.scheme_chars`). -/
def isSchemeChar (c : Char) : Bool :=
  ('a' ≤ c ∧ c ≤ 'z') ∨ ('A' ≤ c ∧ c ≤ 'Z') ∨ ('0' ≤ c ∧ c ≤ '9') ∨
    c = '+' ∨ c = '-' ∨ c = '.'

/-- ASCII alphabetic test (`str.isascii() and str.isalpha()` on one char). -/
def isAsciiAlpha (c : Char) : Bool :=
  ('a' ≤ c ∧ c ≤ 'z') ∨ ('A' ≤ c ∧ c ≤ 'Z')

/-- `urlsplit` preprocessing: lstrip C0-or-space, then drop tab/CR/LF. -/
def cleanUrlChars (cs : List Char) : List Char :=
  (cs.dropWhile isC0orSpace).filter (fun c => ¬ isUnsafeUrlByte c)

/-- The scheme-splitting step of `urlsplit`: if the first `:` is preceded
by an ASCII letter followed by scheme characters, split it off
(lowercased). -/
def splitScheme (cs : List Char) : String × List Char :=
  let pre := cs.takeWhile (· ≠ ':')
  if ':' ∈ cs ∧ pre ≠ [] ∧ pre.all isSchemeChar ∧
      isAsciiAlpha (pre.headD ' ') then
    (String.mk (pre.map Char.toLower), (cs.dropWhile (· ≠ ':')).tail)
  else
    ("", cs)

/-- Stop characters ending a netloc (`_splitnetloc` delimiters). -/
def isNetlocStop (c : Char) : Bool := c = '/' ∨ c = '?' ∨ c = '#'

/-- The netloc-splitting step of `urlsplit`: a netloc is present only
when `url[:2] == '//'`; it extends to the next `/`, `?` or `#`
(`_splitnetloc`). -/
def splitNetloc (cs : List Char) : String × List Char :=
  if cs.take 2 = ['/', '/'] then
    (String.mk ((cs.drop 2).takeWhile (fun c => !isNetlocStop c)),
      (cs.drop 2).dropWhile (fun c => !isNetlocStop c))
  else ("", cs)

/-- `url.split('#', 1)` when a fragment is present. -/
def splitFragment (cs : List Char) : List Char × String :=
  if '#' ∈ cs then
    (cs.takeWhile (· ≠ '#'), String.mk ((cs.dropWhile (· ≠ '#')).tail))
  else (cs, "")

/-- `url.split('?', 1)` when a query is present. -/
def splitQuery (cs : List Char) : List Char × String :=
  if '?' ∈ cs then
    (cs.takeWhile (· ≠ '?'), String.mk ((cs.dropWhile (· ≠ '?')).tail))
  else (cs, "")

/-- `urllib.parse.urlsplit` (scheme, netloc, path, query, fragment). -/
def urlsplit (url : String) : UrlParts :=
  let cs := cleanUrlChars url.data
  let sch := splitScheme cs
  let nl := splitNetloc sch.2
  let fr := splitFragment nl.2
  let qu := splitQuery fr.1
  ⟨sch.1, nl.1, String.mk qu.1, "", qu.2, fr.2⟩

/-- Schemes for which `urlparse` separates path parameters
(`urllib.parse.uses_params`). -/
def uses_params : List String :=
  ["", "ftp", "hdl", "prospero", "http", "imap", "https", "shttp", "rtsp",
    "rtspu", "sip", "sips", "mms", "sftp", "tel"]

/-- `urllib.parse._splitparams`: split `;params` off the last path
segment. -/
def splitParams (cs : List Char) : List Char × String :=
  if '/' ∈ cs then
    let seg := (cs.reverse.takeWhile (· ≠ '/')).reverse
    let pre := (cs.reverse.dropWhile (· ≠ '/')).reverse
    if ';' ∈ seg then
      (pre ++ seg.takeWhile (· ≠ ';'), String.mk ((seg.dropWhile (· ≠ ';')).tail))
    else (cs, "")
  else
    (cs.takeWhile (· ≠ ';'), String.mk ((cs.dropWhile (· ≠ ';')).tail))

/-- `urllib.parse.urlparse`. -/
def urlparse (url : String) : UrlParts :=
  let sp := urlsplit url
  if sp.scheme ∈ uses_params ∧ ';' ∈ sp.path.data then
    { sp with
        path := String.mk (splitParams sp.path.data).1
        params := (splitParams sp.path.data).2 }
  else
    sp

/-! ## `c2md/crawl.py` -/

/-- `path.rstrip("/")`. -/
def rstripSlashes (cs : List Char) : List Char :=
  (cs.reverse.dropWhile (· = '/')).reverse

/-- `_normalize_url`: normalize a URL for dedup
(`scheme://netloc` plus the path with trailing slashes stripped,
an empty path becoming `/`). -/
def _normalize_url (url : String) : String :=
  let parsed := urlparse url
  let path :=
    if rstripSlashes parsed.path.data = [] then "/"
    else String.mk (rstripSlashes parsed.path.data)
  parsed.scheme ++ "://" ++ parsed.netloc ++ path

/-- `FetchResult` from `c2md/fetch.py` (bytes modelled as `List Nat`). -/
structure FetchResult where
  html : String
  url : String
  status : Int
  screenshot : Option (List Nat) := none
  pdf : Option (List Nat) := none
  headers : List (String × String) := []
deriving DecidableEq, Repr

/-- The extensions filtered out by `_extract_links`
(`jpg|jpeg|png|gif|svg|pdf|zip|tar|gz|css|js|xml`, case-insensitive). -/
def filteredExtensions : List String :=
  ["jpg", "jpeg", "png", "gif", "svg", "pdf", "zip", "tar", "gz", "css",
    "js", "xml"]

/-- Whether `re.search(r"\.(jpg|...)$", path, re.I)` matches: the path
ends in a dot followed by one of the filtered extensions. -/
def hasFilteredExt (path : String) : Bool :=
  filteredExtensions.any fun ext =>
    (("." ++ ext).data.isSuffixOf (path.data.map Char.toLower))

/-- One iteration of the href loop in `_extract_links`: skip fragments
and javascript/mailto/tel schemes, resolve against the page URL via the
resolver `join` (`urllib.parse.urljoin`, an external collaborator),
then keep only same-domain http(s) URLs without a filtered extension. -/
def keepHref (join : String → String → String) (base_url base_domain : String)
    (href : String) : Option String :=
  if pyStartsWith href "#" ∨ pyStartsWith href "javascript:" ∨
      pyStartsWith href "mailto:" ∨ pyStartsWith href "tel:" then none
  else
    let absolute := join base_url href
    let parsed := urlparse absolute
    if parsed.netloc ≠ base_domain then none
    else if ¬ (parsed.scheme = "http" ∨ parsed.scheme = "https") then none
    else if hasFilteredExt parsed.path then none
    else some absolute

/-- The `links` list built by `_extract_links` before deduplication. -/
def candidateLinks (join : String → String → String)
    (hrefs : List String) (base_url base_domain : String) : List String :=
  hrefs.filterMap (keepHref join base_url base_domain)

/-- The dedup loop at the end of `_extract_links`: keep the first link
for each `_normalize_url` identity, preserving order (`seen` models the
Python set). -/
def dedupByNormalized (seen : List String) : List String → List String
  | [] => []
  | l :: ls =>
    if _normalize_url l ∈ seen then dedupByNormalized seen ls
    else l :: dedupByNormalized (_normalize_url l :: seen) ls

/-- `_extract_links`: the anchor hrefs of the page (produced by the
external HTML parser) filtered, resolved and deduplicated. -/
def _extract_links (join : String → String → String)
    (hrefs : List String) (base_url base_domain : String) : List String :=
  dedupByNormalized [] (candidateLinks join hrefs base_url base_domain)

/-- The per-link loop of `deep_crawl`.  `fetch` is the session fetch;
`none` models `session.fetch` raising, which the loop swallows. -/
def crawlLoop (fetch : String → Option FetchResult) :
    List String → Int → List FetchResult → List String → List FetchResult
  | [], _, results, _ => results
  | url :: rest, max_pages, results, visited =>
    if (results.length : Int) ≥ max_pages then results
    else
      let normalized := _normalize_url url
      if normalized ∈ visited then crawlLoop fetch rest max_pages results visited
      else
        match fetch url with
        | some result =>
          if result.status < 400 then
            crawlLoop fetch rest max_pages (results ++ [result]) (normalized :: visited)
          else
            crawlLoop fetch rest max_pages results (normalized :: visited)
        | none => crawlLoop fetch rest max_pages results (normalized :: visited)

/-- `deep_crawl`.  `anchorsOf` abstracts the BeautifulSoup step that
lists anchor `href`s of an HTML document; `join` abstracts `urljoin`;
`url_pattern` abstracts the compiled `fnmatch` glob; `fetch url = none`
models the fetch raising.  The result is `none` exactly when the seed
fetch raises (that exception propagates out of `deep_crawl`). -/
def deep_crawl (fetch : String → Option FetchResult)
    (anchorsOf : String → List String) (join : String → String → String)
    (start_url : String) (max_pages : Int)
    (url_pattern : Option (String → Bool)) : Option (List FetchResult) :=
  let base_domain := (urlparse start_url).netloc
  match fetch start_url with
  | none => none
  | some start_result =>
    let results := [start_result]
    let visited := [_normalize_url start_url]
    let discovered :=
      _extract_links join (anchorsOf start_result.html) start_url base_domain
    let discovered :=
      match url_pattern with
      | some pat => discovered.filter pat
      | none => discovered
    some (crawlLoop fetch discovered max_pages results visited)

/-- The sequence of URLs `deep_crawl`'s per-link loop passes to
`session.fetch` (ghost observer of `crawlLoop`: it mirrors its control
flow and records each fetch call). -/
def crawlLoopFetches (fetch : String → Option FetchResult) :
    List String → Int → List FetchResult → List String → List String
  | [], _, _, _ => []
  | url :: rest, max_pages, results, visited =>
    if (results.length : Int) ≥ max_pages then []
    else
      let normalized := _normalize_url url
      if normalized ∈ visited then
        crawlLoopFetches fetch rest max_pages results visited
      else
        url ::
          match fetch url with
          | some result =>
            if result.status < 400 then
              crawlLoopFetches fetch rest max_pages (results ++ [result])
                (normalized :: visited)
            else
              crawlLoopFetches fetch rest max_pages results (normalized :: visited)
          | none => crawlLoopFetches fetch rest max_pages results (normalized :: visited)

/-- All URLs `deep_crawl` passes to `session.fetch`, the seed first. -/
def deepCrawlFetches (fetch : String → Option FetchResult)
    (anchorsOf : String → List String) (join : String → String → String)
    (start_url : String) (max_pages : Int)
    (url_pattern : Option (String → Bool)) : List String :=
  let base_domain := (urlparse start_url).netloc
  match fetch start_url with
  | none => [start_url]
  | some start_result =>
    let discovered :=
      _extract_links join (anchorsOf start_result.html) start_url base_domain
    let discovered :=
      match url_pattern with
      | some pat => discovered.filter pat
      | none => discovered
    start_url ::
      crawlLoopFetches fetch discovered max_pages [start_result]
        [_normalize_url start_url]

/-! ## `c2md/citations.py`

`add_citations` is driven by
`re.sub(r"(?<!!)\[([^\]]*)\]\(([^)]+)\)", replace_link, markdown)`.
The regex scanner is embedded directly: the subject is cut into segments
(plain characters and link matches, found left to right, a match
attempted at every `[` whose preceding character is not `!`), and the
replacement callback is folded over the segments exactly as `re.sub`
folds `replace_link` over the matches. -/

inductive Seg where
  | raw (c : Char)
  | link (text url : String)
deriving DecidableEq, Repr

/-- Attempt the regex tail `([^\]]*)\]\(([^)]+)\)` at the position just
after an opening `[`: greedy text up to the first `]`, an immediate
`(`, then one or more characters up to the first `)`. -/
def tryLink (cs : List Char) : Option (String × String × List Char) :=
  let text := cs.takeWhile (· ≠ ']')
  match cs.dropWhile (· ≠ ']') with
  | ']' :: '(' :: rest2 =>
    let url := rest2.takeWhile (· ≠ ')')
    match rest2.dropWhile (· ≠ ')') with
    | ')' :: rest3 =>
      if url.isEmpty then none else some (String.mk text, String.mk url, rest3)
    | _ => none
  | _ => none

/-- The left-to-right regex scan, fuelled for structural recursion
(`segmentsOf` supplies adequate fuel).  `prev` is the character before
the current position, for the `(?<!!)` look-behind. -/
def segmentsF : Nat → Option Char → List Char → List Seg
  | 0, _, _ => []
  | _ + 1, _, [] => []
  | fuel + 1, prev, c :: rest =>
    if c = '[' ∧ prev ≠ some '!' then
      match tryLink rest with
      | some (t, u, rest') => .link t u :: segmentsF fuel (some ')') rest'
      | none => .raw c :: segmentsF fuel (some c) rest
    else
      .raw c :: segmentsF fuel (some c) rest

/-- The match/non-match segmentation of a subject string. -/
def segmentsOf (markdown : String) : List Seg :=
  segmentsF markdown.data.length none markdown.data

/-- The mutable state of `add_citations`: the `urls` dict (insertion
ordered, as Python dicts are) and the `counter`. -/
structure CiteState where
  urls : List (String × Nat)
  counter : Nat
deriving DecidableEq, Repr

/-- Dict lookup `urls[url]`. -/
def lookupUrl (url : String) : List (String × Nat) → Option Nat
  | [] => none
  | (u, n) :: rest => if u = url then some n else lookupUrl url rest

/-- The `replace_link` callback: fragment targets are returned verbatim
(`match.group(0)`), otherwise the URL is numbered (newly, if unseen) and
the match is rewritten to `text [N]` or `[N]`. -/
def replace_link (st : CiteState) (text url : String) : String × CiteState :=
  if pyStartsWith url "#" then
    ("[" ++ text ++ "](" ++ url ++ ")", st)
  else
    let (st, refNum) :=
      match lookupUrl url st.urls with
      | some n => (st, n)
      | none =>
        let c := st.counter + 1
        (⟨st.urls ++ [(url, c)], c⟩, c)
    if (pyStrip text).data.isEmpty then
      ("[" ++ toString refNum ++ "]", st)
    else
      (text ++ " [" ++ toString refNum ++ "]", st)

/-- `re.sub` with the `replace_link` callback, folded over segments. -/
def runSub : List Seg → CiteState → String × CiteState
  | [], st => ("", st)
  | .raw c :: rest, st =>
    let (out, st') := runSub rest st
    (String.mk [c] ++ out, st')
  | .link t u :: rest, st =>
    let (piece, st1) := replace_link st t u
    let (out, st2) := runSub rest st1
    (piece ++ out, st2)

/-- Stable insertion of `x` into a sorted list: `x` goes before the
first element it compares `le` to. -/
def insertSortedBy {α : Type} (le : α → α → Bool) (x : α) : List α → List α
  | [] => [x]
  | y :: ys => if le x y then x :: y :: ys else y :: insertSortedBy le x ys

/-- Stable sort (insertion sort).  Python's `sorted` is stable, and a
stable sort is uniquely determined by its comparison, so this embeds
`sorted` for any total `le`. -/
def stableSortBy {α : Type} (le : α → α → Bool) : List α → List α
  | [] => []
  | x :: xs => insertSortedBy le x (stableSortBy le xs)

/-- `add_citations`: returns `(markdown_with_citations,
references_block)`. -/
def add_citations (markdown : String) : String × String :=
  if markdown = "" then ("", "")
  else
    let (cited, st) := runSub (segmentsOf markdown) ⟨[], 0⟩
    if st.urls.isEmpty then (markdown, "")
    else
      let sortedUrls := stableSortBy (fun a b => a.2 ≤ b.2) st.urls
      let entries := sortedUrls.map fun p => "[" ++ toString p.2 ++ "] " ++ p.1
      (cited, pyJoin "\n" (["", "## References", ""] ++ entries))

/-- Reference list: non-fragment link target URLs of a segment list, in
match order (the URLs `replace_link` numbers). -/
def linkUrls : List Seg → List String
  | [] => []
  | .raw _ :: rest => linkUrls rest
  | .link _ u :: rest =>
    if pyStartsWith u "#" then linkUrls rest else u :: linkUrls rest

/-- Reference list: keep-first deduplication (first-encounter order). -/
def firstSeen (seen : List String) : List String → List String
  | [] => []
  | u :: us =>
    if u ∈ seen then firstSeen seen us else u :: firstSeen (u :: seen) us

/-! ## `c2md/_postprocess.py`: `fix_heading_linebreaks` -/

/-- `re.match(r"^(#{1,6})\s*$", line)`: the line is one to six `#`
followed only by whitespace; returns the hash run (`group(1)`). -/
def isBareHeading (line : String) : Option String :=
  let hashes := line.data.takeWhile (· = '#')
  let rest := line.data.dropWhile (· = '#')
  if hashes ≠ [] ∧ hashes.length ≤ 6 ∧ rest.all isPySpace then
    some (String.mk hashes)
  else none

/-- Whether a line can be consumed as a heading fragment: nonempty after
stripping, no structural-markdown prefix, at most three words. -/
def eligibleFragment (line : String) : Bool :=
  let s := pyStrip line
  !s.data.isEmpty && !pyStartsWith s "#" && !pyStartsWith s "-" &&
    !pyStartsWith s "*" && !pyStartsWith s "[" && !pyStartsWith s "|" &&
    !pyStartsWith s ">" && !pyStartsWith s "```" && decide (countWords s ≤ 3)

/-- The line-scanning loop of `fix_heading_linebreaks`. -/
def fixLines : List String → List String
  | [] => []
  | line :: rest =>
    match isBareHeading line with
    | some level =>
      let frags := (rest.takeWhile eligibleFragment).map pyStrip
      if frags.isEmpty then line :: fixLines rest
      else
        (level ++ " " ++ pyJoin " " frags) ::
          fixLines (rest.dropWhile eligibleFragment)
    | none => line :: fixLines rest
termination_by l => l.length
decreasing_by
  all_goals first
  | (simp only [List.length_cons]
     have hd : ∀ (l : List String), (l.dropWhile eligibleFragment).length ≤ l.length := by
       intro l
       induction l with
       | nil => simp [List.dropWhile]
       | cons x xs ih =>
         by_cases h : eligibleFragment x
         · simp only [List.dropWhile_cons, h, if_true]
           exact le_trans ih (Nat.le_succ _)
         · simp [List.dropWhile_cons, h]
     exact Nat.lt_succ_of_le (hd _))
  | simp

/-- Python `markdown.split("\n")`. -/
def splitOnNewline : List Char → List (List Char)
  | [] => [[]]
  | c :: rest =>
    let r := splitOnNewline rest
    if c = '\n' then [] :: r else (c :: r.headD []) :: r.tail

/-- `fix_heading_linebreaks`. -/
def fix_heading_linebreaks (markdown : String) : String :=
  pyJoin "\n" (fixLines ((splitOnNewline markdown.data).map String.mk))

/-! ## `c2md/extract.py`: `sort_results_by_date` -/

/-- The fields of a tagged result dict that `get_sort_key` reads
(`item.get("published_date")`, `item.get("url", "")`). -/
structure SortItem where
  published_date : Option String
  url : String
deriving DecidableEq, Repr

/-- `get_sort_key`: dateless items get a sentinel date. -/
def get_sort_key (descending : Bool) (item : SortItem) : String × String :=
  match item.published_date with
  | none => (if descending then "9999-99-99" else "0000-00-00", item.url)
  | some date => (date, item.url)

/-- Python string `<` (lexicographic by code point). -/
def charListLt : List Char → List Char → Bool
  | [], [] => false
  | [], _ :: _ => true
  | _ :: _, [] => false
  | x :: xs, y :: ys => if x < y then true else if y < x then false else charListLt xs ys

/-- Python tuple `<=` on `(str, str)` keys. -/
def pyKeyLe (a b : String × String) : Bool :=
  if charListLt a.1.data b.1.data then true
  else if charListLt b.1.data a.1.data then false
  else !charListLt b.2.data a.2.data

/-- `sort_results_by_date(results, descending)`:
`sorted(results, key=get_sort_key, reverse=descending)`.  `reverse=True`
is a stable sort under the reversed key comparison. -/
def sort_results_by_date (results : List SortItem) (descending : Bool) :
    List SortItem :=
  let le := fun a b =>
    if descending then pyKeyLe (get_sort_key descending b) (get_sort_key descending a)
    else pyKeyLe (get_sort_key descending a) (get_sort_key descending b)
  stableSortBy le results

/-! ## `c2md/fetch.py`: `BrowserSession` lifecycle

The observable resource events of `BrowserSession.__aenter__` /
`__aexit__`, under Python's `async with` protocol: `__aexit__` runs only
when `__aenter__` returned successfully — when `__aenter__` raises
part-way, the exception propagates and `__aexit__` is never invoked. -/

inductive PWEvent where
  | startPW
  | launchBrowser
  | newContext
  | closeContext
  | closeBrowser
  | stopPW
deriving DecidableEq, Repr

/-- Which step of `__aenter__` raises, if any. -/
inductive OpenOutcome where
  | ok
  | launchRaises
  | newContextRaises
deriving DecidableEq, Repr

/-- Events performed by `__aenter__` (in source order:
`async_playwright().start()`, `chromium.launch(...)`,
`browser.new_context(...)`), and whether it returned. -/
def aenterTrace : OpenOutcome → List PWEvent × Bool
  | .ok => ([.startPW, .launchBrowser, .newContext], true)
  | .launchRaises => ([.startPW], false)
  | .newContextRaises => ([.startPW, .launchBrowser], false)

/-- Events performed by `__aexit__` after a fully successful
`__aenter__` (each handle is set, so every guarded close runs): context,
then browser, then driver. -/
def aexitTrace : List PWEvent := [.closeContext, .closeBrowser, .stopPW]

/-- The complete resource trace of
`async with BrowserSession(...) as session: ...` when `__aenter__`
behaves as `outcome`: Python runs `__aexit__` only if `__aenter__`
succeeded. -/
def sessionTrace (outcome : OpenOutcome) : List PWEvent :=
  let (evs, ok) := aenterTrace outcome
  if ok then evs ++ aexitTrace else evs

/-! ## Specification-side definitions and concrete fixtures -/

/-- Characters above the C0/space range; URLs made of these are
untouched by `urlsplit`'s preprocessing. -/
def urlPlainChar (c : Char) : Bool := 0x20 < c.toNat

/-- Whether a segment is either plain text or a fragment-target link
(the inputs on which `replace_link` assigns no number). -/
def fragmentOnlySeg : Seg → Bool
  | .raw _ => true
  | .link _ u => pyStartsWith u "#"

/-- Index of the first occurrence of `u` (specification-side). -/
def posOf (u : String) : List String → Nat
  | [] => 0
  | v :: vs => if v = u then 0 else posOf u vs + 1

/-- Pair the urls of `K` with the numbers `n+1, n+2, …` in order
(the shape of the `urls` dict of `add_citations`). -/
def enum1From (n : Nat) : List String → List (String × Nat)
  | [] => []
  | u :: us => (u, n + 1) :: enum1From (n + 1) us

/-- Specification-side rendering of the citation pass: every match is
rewritten using one fixed, globally determined numbering `assign`. -/
def renderWith (assign : String → Nat) : List Seg → String
  | [] => ""
  | .raw c :: rest => String.mk [c] ++ renderWith assign rest
  | .link t u :: rest =>
    (if pyStartsWith u "#" then "[" ++ t ++ "](" ++ u ++ ")"
     else if (pyStrip t).data.isEmpty then "[" ++ toString (assign u) ++ "]"
     else t ++ " [" ++ toString (assign u) ++ "]") ++ renderWith assign rest

/-- Fixture: the seed page of the concrete crawls below. -/
def seedResult : FetchResult := { html := "", url := "http://s/", status := 200 }

/-- Fixture: a fetch oracle that succeeds on every URL with the seed
page. -/
def fetchSeedOnly : String → Option FetchResult := fun _ => some seedResult

/-- Fixture: an HTML parser observing no anchors. -/
def noAnchors : String → List String := fun _ => []

/-- Fixture: a resolver returning the href unchanged. -/
def joinSnd : String → String → String := fun _ href => href

/-- Fixture: a fetch oracle with one raising URL and one error-status
URL. -/
def c6FetchW : String → Option FetchResult := fun u =>
  if u = "http://w/err" then none
  else if u = "http://w/bad" then some { html := "", url := u, status := 500 }
  else some { html := "", url := u, status := 200 }

/-! ## Supporting lemmas -/

theorem crawlLoop_length_bound (fetch : String → Option FetchResult) :
    ∀ (cands : List String) (mp : Int) (res : List FetchResult) (vis : List String),
      (res.length : Int) ≤ mp → ((crawlLoop fetch cands mp res vis).length : Int) ≤ mp := by
  intro cands
  induction cands with
  | nil => intro mp res vis h; simpa [crawlLoop] using h
  | cons url rest ih =>
    intro mp res vis h
    by_cases hb : (res.length : Int) ≥ mp
    · simpa [crawlLoop, hb] using h
    · by_cases hv : _normalize_url url ∈ vis
      · simpa [crawlLoop, hb, hv] using ih mp res vis h
      · cases hf : fetch url with
        | none => simpa [crawlLoop, hb, hv, hf] using ih mp res _ h
        | some r =>
          by_cases hs : r.status < 400
          · have h' : ((res ++ [r]).length : Int) ≤ mp := by
              simp only [List.length_append, List.length_singleton]
              push_cast
              omega
            simpa [crawlLoop, hb, hv, hf, hs] using ih mp (res ++ [r]) _ h'
          · simpa [crawlLoop, hb, hv, hf, hs] using ih mp res _ h

theorem crawlLoop_head (fetch : String → Option FetchResult) :
    ∀ (cands : List String) (mp : Int) (res : List FetchResult) (vis : List String),
      res ≠ [] → (crawlLoop fetch cands mp res vis).head? = res.head? := by
  intro cands
  induction cands with
  | nil => intro mp res vis _; simp [crawlLoop]
  | cons url rest ih =>
    intro mp res vis hne
    by_cases hb : (res.length : Int) ≥ mp
    · simp [crawlLoop, hb]
    · by_cases hv : _normalize_url url ∈ vis
      · simpa [crawlLoop, hb, hv] using ih mp res vis hne
      · cases hf : fetch url with
        | none => simpa [crawlLoop, hb, hv, hf] using ih mp res _ hne
        | some r =>
          by_cases hs : r.status < 400
          · have happ : (res ++ [r]).head? = res.head? := by
              cases res with
              | nil => exact absurd rfl hne
              | cons a l => simp
            have hne' : res ++ [r] ≠ [] := by simp
            rw [show crawlLoop fetch (url :: rest) mp res vis =
                crawlLoop fetch rest mp (res ++ [r]) (_normalize_url url :: vis) by
              simp [crawlLoop, hb, hv, hf, hs]]
            rw [ih mp (res ++ [r]) _ hne', happ]
          · simpa [crawlLoop, hb, hv, hf, hs] using ih mp res _ hne

/-! ## Claim theorems -/

/-- C1 (counterexample): with `maxPages = 0` the crawl still returns the
seed page, so `len(results) = 1 > maxPages`: the budget invariant fails
for the configuration `maxPages = 0` that the claim includes. -/
theorem c1_budget_fails_at_zero :
    deep_crawl fetchSeedOnly noAnchors joinSnd "http://s/" 0 none = some [seedResult] ∧
      ¬ ((([seedResult] : List FetchResult).length : Int) ≤ 0) := by
  constructor
  · rfl
  · decide

/-- C1 (amended): for every crawl configuration with `maxPages ≥ 1` the
returned list satisfies `len(results) ≤ maxPages`, and for every
configuration whatsoever `results[0]` is the seed page's `FetchResult`
(whatever its status code): the head of the result list is exactly what
the seed fetch returned. -/
theorem c1_budget_invariant_and_seed_head
    (fetch : String → Option FetchResult) (anchorsOf : String → List String)
    (join : String → String → String) (start_url : String) (mp : Int)
    (pat : Option (String → Bool)) (l : List FetchResult)
    (h : deep_crawl fetch anchorsOf join start_url mp pat = some l) :
    (1 ≤ mp → (l.length : Int) ≤ mp) ∧ l.head? = fetch start_url := by
  unfold deep_crawl at h
  cases hf : fetch start_url with
  | none => rw [hf] at h; exact absurd h (by simp)
  | some start_result =>
    rw [hf] at h
    simp only [Option.some.injEq] at h
    subst h
    constructor
    · intro h1
      exact crawlLoop_length_bound fetch _ mp [start_result] _ (by simpa using h1)
    · rw [crawlLoop_head fetch _ mp [start_result] _ (by simp)]
      simp

/-- C1 (witness): the amended budget invariant at a concrete
configuration with `maxPages = 1`. -/
theorem c1_budget_invariant_witness :
    (1 ≤ (1 : Int) → (([seedResult] : List FetchResult).length : Int) ≤ 1) ∧
      ([seedResult] : List FetchResult).head? = fetchSeedOnly "http://s/" :=
  c1_budget_invariant_and_seed_head fetchSeedOnly noAnchors joinSnd "http://s/" 1
    none [seedResult] rfl

/-- C2: sorting `[dated 2024-01-01, undated]` descending places the
undated result FIRST, not after the dated ones: `get_sort_key` gives
dateless items the sentinel `"9999-99-99"` while `reverse=True` puts the
largest key first, contradicting the claim (and the function's own
docstring, "Results without dates go to end"). -/
theorem c2_undated_results_sort_first :
    sort_results_by_date
        [⟨some "2024-01-01", "a"⟩, ⟨none, "b"⟩] true =
      [⟨none, "b"⟩, ⟨some "2024-01-01", "a"⟩] := by
  decide

/-- C4: when `chromium.launch` raises inside `__aenter__`, the only
event performed is starting the Playwright driver — no `stop` ever runs
(Python skips `__aexit__` when `__aenter__` raises), and likewise a
`new_context` failure leaves the launched browser unclosed; cleanup of
partially acquired resources therefore does NOT run, contrary to the
claim.  On the successful path the close order is context, browser,
driver. -/
theorem c4_partial_open_cleanup_never_runs :
    (sessionTrace .launchRaises = [.startPW] ∧
      PWEvent.stopPW ∉ sessionTrace .launchRaises) ∧
    (sessionTrace .newContextRaises = [.startPW, .launchBrowser] ∧
      PWEvent.closeBrowser ∉ sessionTrace .newContextRaises ∧
      PWEvent.stopPW ∉ sessionTrace .newContextRaises) ∧
    sessionTrace .ok =
      [.startPW, .launchBrowser, .newContext,
        .closeContext, .closeBrowser, .stopPW] := by
  decide

/-- C6: in the per-link loop, with budget remaining and an unvisited
candidate, a raising fetch (`fetch url = none`) is swallowed — the loop
result is exactly the crawl of the remaining candidates — and a
successful fetch is appended to the results if and only if its status
code is below 400 (`res ++ [r]` versus `res` unchanged). -/
theorem c6_failure_swallowed_and_status_filter
    (fetch : String → Option FetchResult) (url : String) (rest : List String)
    (mp : Int) (res : List FetchResult) (vis : List String)
    (hbudget : (res.length : Int) < mp) (hvis : _normalize_url url ∉ vis) :
    (fetch url = none →
      crawlLoop fetch (url :: rest) mp res vis =
        crawlLoop fetch rest mp res (_normalize_url url :: vis)) ∧
    (∀ r, fetch url = some r →
      crawlLoop fetch (url :: rest) mp res vis =
        crawlLoop fetch rest mp
          (res ++ if r.status < 400 then [r] else [])
          (_normalize_url url :: vis)) := by
  have hb : ¬ ((res.length : Int) ≥ mp) := not_le.mpr hbudget
  constructor
  · intro hf
    simp [crawlLoop, hb, hvis, hf]
  · intro r hf
    by_cases hs : r.status < 400
    · simp [crawlLoop, hb, hvis, hf, hs]
    · simp [crawlLoop, hb, hvis, hf, hs]

/-- C6 (witness): the swallowed-failure equation and the status-filter
equation at concrete inputs (one raising URL, one status-500 URL). -/
theorem c6_failure_swallowed_witness :
    (crawlLoop c6FetchW ["http://w/err"] 5 [] [] =
      crawlLoop c6FetchW [] 5 [] [_normalize_url "http://w/err"]) ∧
    (crawlLoop c6FetchW ["http://w/bad"] 5 [] [] =
      crawlLoop c6FetchW [] 5
        ([] ++ if (500 : Int) < 400 then
            [{ html := "", url := "http://w/bad", status := 500 }] else [])
        [_normalize_url "http://w/bad"]) :=
  ⟨(c6_failure_swallowed_and_status_filter c6FetchW "http://w/err" [] 5 [] []
      (by decide) (by simp)).1 rfl,
    (c6_failure_swallowed_and_status_filter c6FetchW "http://w/bad" [] 5 [] []
      (by decide) (by simp)).2
      { html := "", url := "http://w/bad", status := 500 } rfl⟩

/-- C10: `deep_crawl` returns no result list exactly when the seed fetch
raises — a seed failure propagates to the caller (no partial or empty
list), while any non-seed failure still yields a result list. -/
theorem c10_seed_fetch_failure_propagates
    (fetch : String → Option FetchResult) (anchorsOf : String → List String)
    (join : String → String → String) (start_url : String) (mp : Int)
    (pat : Option (String → Bool)) :
    deep_crawl fetch anchorsOf join start_url mp pat = none ↔
      fetch start_url = none := by
  unfold deep_crawl
  cases hf : fetch start_url <;> simp

theorem keepHref_props (join : String → String → String)
    (base_url base_domain href u : String)
    (h : keepHref join base_url base_domain href = some u) :
    (urlparse u).netloc = base_domain ∧
      ((urlparse u).scheme = "http" ∨ (urlparse u).scheme = "https") ∧
      hasFilteredExt (urlparse u).path = false := by
  unfold keepHref at h
  dsimp only at h
  split_ifs at h with h1 h2 h3 h4
  simp only [Option.some.injEq] at h
  subst h
  exact ⟨by_contra fun hc => h2 hc, h3, by simpa using h4⟩

theorem dedup_sublist (l : List String) :
    ∀ seen, (dedupByNormalized seen l).Sublist l := by
  induction l with
  | nil => intro seen; simp [dedupByNormalized]
  | cons x ls ih =>
    intro seen
    by_cases hm : _normalize_url x ∈ seen
    · simp only [dedupByNormalized, hm, if_true]
      exact (ih seen).cons x
    · simp only [dedupByNormalized, hm, if_false]
      exact (ih _).cons₂ x

theorem dedup_nodup_disjoint (l : List String) :
    ∀ seen, ((dedupByNormalized seen l).map _normalize_url).Nodup ∧
      ∀ x ∈ dedupByNormalized seen l, _normalize_url x ∉ seen := by
  induction l with
  | nil => intro seen; simp [dedupByNormalized]
  | cons x ls ih =>
    intro seen
    by_cases hm : _normalize_url x ∈ seen
    · simpa only [dedupByNormalized, hm, if_true] using ih seen
    · simp only [dedupByNormalized, hm, if_false, List.map_cons, List.nodup_cons,
        List.mem_cons, List.mem_map]
      refine ⟨⟨?_, (ih _).1⟩, ?_⟩
      · rintro ⟨y, hy, hyx⟩
        have := (ih (_normalize_url x :: seen)).2 y hy
        simp [hyx] at this
      · rintro y (rfl | hy)
        · exact hm
        · have := (ih (_normalize_url x :: seen)).2 y hy
          simp only [List.mem_cons, not_or] at this
          exact this.2

theorem dedup_cover (l : List String) :
    ∀ seen, ∀ v ∈ l, _normalize_url v ∉ seen →
      ∃ u ∈ dedupByNormalized seen l, _normalize_url u = _normalize_url v := by
  induction l with
  | nil => intro seen v hv; simp at hv
  | cons x ls ih =>
    intro seen v hv hns
    rcases List.mem_cons.mp hv with rfl | hv'
    · by_cases hm : _normalize_url v ∈ seen
      · exact absurd hm hns
      · exact ⟨v, by simp [dedupByNormalized, hm], rfl⟩
    · by_cases hm : _normalize_url x ∈ seen
      · simpa only [dedupByNormalized, hm, if_true] using ih seen v hv' hns
      · by_cases hvx : _normalize_url v = _normalize_url x
        · exact ⟨x, by simp [dedupByNormalized, hm], hvx.symm⟩
        · have hns' : _normalize_url v ∉ _normalize_url x :: seen := by
            simp [hvx, hns]
          obtain ⟨u, hu, hequ⟩ := ih (_normalize_url x :: seen) v hv' hns'
          exact ⟨u, by simp [dedupByNormalized, hm, hu], hequ⟩

theorem dedup_first_repr (l : List String) :
    ∀ seen, ∀ u ∈ dedupByNormalized seen l,
      _normalize_url u ∉ seen ∧
        l.find? (fun v => _normalize_url v == _normalize_url u) = some u := by
  induction l with
  | nil => intro seen u hu; simp [dedupByNormalized] at hu
  | cons x ls ih =>
    intro seen u hu
    by_cases hm : _normalize_url x ∈ seen
    · rw [dedupByNormalized, if_pos hm] at hu
      obtain ⟨hns, hfind⟩ := ih seen u hu
      refine ⟨hns, ?_⟩
      have hne : (_normalize_url x == _normalize_url u) = false := by
        simp only [beq_eq_false_iff_ne, ne_eq]
        intro he
        exact hns (he ▸ hm)
      rw [List.find?_cons_of_neg _ (by simp [hne]), hfind]
    · rw [dedupByNormalized, if_neg hm] at hu
      rcases List.mem_cons.mp hu with rfl | hu'
      · exact ⟨hm, by rw [List.find?_cons_of_pos _ (by simp)]⟩
      · obtain ⟨hns, hfind⟩ := ih (_normalize_url x :: seen) u hu'
        simp only [List.mem_cons, not_or] at hns
        refine ⟨hns.2, ?_⟩
        have hne : (_normalize_url x == _normalize_url u) = false := by
          simp only [beq_eq_false_iff_ne, ne_eq]
          intro he
          exact hns.1 he.symm
        rw [List.find?_cons_of_neg _ (by simp [hne]), hfind]

/-- C5: every URL returned by `_extract_links` parses to the base domain
as its host, an http(s) scheme, and a path without a filtered extension
(so in particular no javascript/mailto/tel scheme survives); and the
returned list is the keep-first deduplication of the filtered candidate
list under `_normalize_url` identity: normalized forms are pairwise
distinct, the list is an order-preserving sublist of the candidates,
every candidate's normalized form is represented, and each kept element
is the first candidate bearing its normalized form. -/
theorem c5_link_filter_soundness_and_dedup (join : String → String → String)
    (hrefs : List String) (base_url base_domain : String) :
    (∀ u ∈ _extract_links join hrefs base_url base_domain,
        (urlparse u).netloc = base_domain ∧
        ((urlparse u).scheme = "http" ∨ (urlparse u).scheme = "https") ∧
        hasFilteredExt (urlparse u).path = false) ∧
    ((_extract_links join hrefs base_url base_domain).map _normalize_url).Nodup ∧
    (_extract_links join hrefs base_url base_domain).Sublist
      (candidateLinks join hrefs base_url base_domain) ∧
    (∀ v ∈ candidateLinks join hrefs base_url base_domain,
        ∃ u ∈ _extract_links join hrefs base_url base_domain,
          _normalize_url u = _normalize_url v) ∧
    (∀ u ∈ _extract_links join hrefs base_url base_domain,
        (candidateLinks join hrefs base_url base_domain).find?
          (fun v => _normalize_url v == _normalize_url u) = some u) := by
  refine ⟨?_, ?_, ?_, ?_, ?_⟩
  · intro u hu
    have hc : u ∈ candidateLinks join hrefs base_url base_domain :=
      (dedup_sublist _ []).subset hu
    obtain ⟨href, _, hk⟩ := List.mem_filterMap.mp hc
    exact keepHref_props join base_url base_domain href u hk
  · exact (dedup_nodup_disjoint _ []).1
  · exact dedup_sublist _ []
  · intro v hv
    exact dedup_cover _ [] v hv (by simp)
  · intro u hu
    exact (dedup_first_repr _ [] u hu).2

theorem lookup_enum1From (u : String) :
    ∀ (K : List String) (n : Nat),
      lookupUrl u (enum1From n K) =
        if u ∈ K then some (n + posOf u K + 1) else none := by
  intro K
  induction K with
  | nil => intro n; simp [enum1From, lookupUrl]
  | cons v vs ih =>
    intro n
    by_cases hv : v = u
    · subst hv
      simp [enum1From, lookupUrl, posOf]
    · simp only [enum1From, lookupUrl, if_neg hv, ih (n + 1), List.mem_cons, posOf]
      by_cases hm : u ∈ vs
      · have : ¬ (u = v) := fun he => hv he.symm
        simp only [hm, if_true, this, false_or, if_neg hv]
        congr 1
        omega
      · have : ¬ (u = v) := fun he => hv he.symm
        simp [hm, this, hv]

theorem enum1From_append_single :
    ∀ (K : List String) (n : Nat) (u : String),
      enum1From n (K ++ [u]) = enum1From n K ++ [(u, n + K.length + 1)] := by
  intro K
  induction K with
  | nil => intro n u; simp [enum1From]
  | cons v vs ih =>
    intro n u
    calc enum1From n ((v :: vs) ++ [u])
        = (v, n + 1) :: enum1From (n + 1) (vs ++ [u]) := by
          rw [List.cons_append]; rfl
      _ = (v, n + 1) :: (enum1From (n + 1) vs ++ [(u, n + 1 + vs.length + 1)]) := by
          rw [ih (n + 1)]
      _ = enum1From n (v :: vs) ++ [(u, n + (v :: vs).length + 1)] := by
          have harith : n + 1 + vs.length + 1 = n + (v :: vs).length + 1 := by
            simp only [List.length_cons]
            omega
          rw [harith]
          rfl

theorem posOf_append_of_mem {u : String} :
    ∀ {K : List String} (L : List String), u ∈ K → posOf u (K ++ L) = posOf u K := by
  intro K
  induction K with
  | nil => intro L h; simp at h
  | cons v vs ih =>
    intro L h
    by_cases hv : v = u
    · simp [posOf, hv]
    · rcases List.mem_cons.mp h with rfl | h'
      · exact absurd rfl hv
      · simp [posOf, hv, ih L h']

theorem posOf_append_of_not_mem {u : String} :
    ∀ {K : List String} (L : List String), u ∉ K →
      posOf u (K ++ L) = K.length + posOf u L := by
  intro K
  induction K with
  | nil => intro L _; simp [posOf]
  | cons v vs ih =>
    intro L h
    simp only [List.mem_cons, not_or] at h
    have hv : ¬ (v = u) := fun he => h.1 he.symm
    calc posOf u ((v :: vs) ++ L)
        = posOf u (vs ++ L) + 1 := by rw [List.cons_append, posOf, if_neg hv]
      _ = vs.length + posOf u L + 1 := by rw [ih L h.2]
      _ = (v :: vs).length + posOf u L := by
          simp only [List.length_cons]
          omega

theorem firstSeen_congr :
    ∀ (us : List String) (s1 s2 : List String),
      (∀ x, x ∈ s1 ↔ x ∈ s2) → firstSeen s1 us = firstSeen s2 us := by
  intro us
  induction us with
  | nil => intro s1 s2 _; rfl
  | cons u rest ih =>
    intro s1 s2 hs
    by_cases hm : u ∈ s1
    · simp only [firstSeen, if_pos hm, if_pos ((hs u).mp hm)]
      exact ih s1 s2 hs
    · simp only [firstSeen, if_neg hm, if_neg (fun hc => hm ((hs u).mpr hc))]
      refine congrArg _ (ih _ _ ?_)
      intro x
      simp only [List.mem_cons]
      exact or_congr Iff.rfl (hs x)

theorem replace_link_fragment (st : CiteState) (t u : String)
    (h : pyStartsWith u "#" = true) :
    replace_link st t u = ("[" ++ t ++ "](" ++ u ++ ")", st) := by
  simp [replace_link, h]

theorem replace_link_seen (t u : String) (K : List String)
    (h : pyStartsWith u "#" = false) (hu : u ∈ K) :
    replace_link ⟨enum1From 0 K, K.length⟩ t u =
      ((if (pyStrip t).data.isEmpty then "[" ++ toString (posOf u K + 1) ++ "]"
        else t ++ " [" ++ toString (posOf u K + 1) ++ "]"),
        ⟨enum1From 0 K, K.length⟩) := by
  have hlk : lookupUrl u (enum1From 0 K) = some (posOf u K + 1) := by
    rw [lookup_enum1From u K 0, if_pos hu]
    congr 1
    omega
  simp only [replace_link, h, Bool.false_eq_true, if_false, hlk]
  split <;> rfl

theorem replace_link_new (t u : String) (K : List String)
    (h : pyStartsWith u "#" = false) (hu : u ∉ K) :
    replace_link ⟨enum1From 0 K, K.length⟩ t u =
      ((if (pyStrip t).data.isEmpty then "[" ++ toString (K.length + 1) ++ "]"
        else t ++ " [" ++ toString (K.length + 1) ++ "]"),
        ⟨enum1From 0 (K ++ [u]), K.length + 1⟩) := by
  have hlk : lookupUrl u (enum1From 0 K) = none := by
    rw [lookup_enum1From u K 0, if_neg hu]
  have hstate : enum1From 0 K ++ [(u, K.length + 1)] = enum1From 0 (K ++ [u]) := by
    rw [enum1From_append_single K 0 u]
    congr 3
    omega
  simp only [replace_link, h, Bool.false_eq_true, if_false, hlk, hstate]
  split <;> rfl

theorem runSub_cons_link (t u : String) (rest : List Seg) (st : CiteState) :
    runSub (Seg.link t u :: rest) st =
      ((replace_link st t u).1 ++ (runSub rest (replace_link st t u).2).1,
        (runSub rest (replace_link st t u).2).2) := by
  simp only [runSub]

theorem linkUrls_cons_nonfragment (t u : String) (rest : List Seg)
    (h : pyStartsWith u "#" = false) :
    linkUrls (Seg.link t u :: rest) = u :: linkUrls rest := by
  simp [linkUrls, h]

theorem runSub_spec :
    ∀ (segs : List Seg) (K : List String),
      runSub segs ⟨enum1From 0 K, K.length⟩ =
        (renderWith (fun u => posOf u (K ++ firstSeen K (linkUrls segs)) + 1) segs,
          ⟨enum1From 0 (K ++ firstSeen K (linkUrls segs)),
            (K ++ firstSeen K (linkUrls segs)).length⟩) := by
  intro segs
  induction segs with
  | nil =>
    intro K
    simp [runSub, renderWith, linkUrls, firstSeen]
  | cons s rest ih =>
    intro K
    cases s with
    | raw c =>
      simp only [runSub, linkUrls, renderWith, ih K]
    | link t u =>
      cases hfrag : pyStartsWith u "#" with
      | true =>
        have hurls : linkUrls (Seg.link t u :: rest) = linkUrls rest := by
          simp [linkUrls, hfrag]
        rw [runSub_cons_link, replace_link_fragment _ _ _ hfrag]
        simp only [ih K, hurls, renderWith, hfrag, if_true]
      | false =>
        rw [runSub_cons_link]
        by_cases hu : u ∈ K
        · rw [replace_link_seen t u K hfrag hu]
          have hurls := linkUrls_cons_nonfragment t u rest hfrag
          have hfs : firstSeen K (linkUrls (Seg.link t u :: rest)) =
              firstSeen K (linkUrls rest) := by
            rw [hurls, firstSeen, if_pos hu]
          have hpos : posOf u (K ++ firstSeen K (linkUrls rest)) + 1 =
              posOf u K + 1 := by
            rw [posOf_append_of_mem _ hu]
          simp only [ih K, hfs, renderWith, hfrag, Bool.false_eq_true, if_false]
          rw [hpos]
        · rw [replace_link_new t u K hfrag hu]
          have hurls := linkUrls_cons_nonfragment t u rest hfrag
          have hL : K ++ firstSeen K (linkUrls (Seg.link t u :: rest)) =
              (K ++ [u]) ++ firstSeen (K ++ [u]) (linkUrls rest) := by
            have hcg : firstSeen (K ++ [u]) (linkUrls rest) =
                firstSeen (u :: K) (linkUrls rest) := by
              refine firstSeen_congr _ _ _ ?_
              intro x
              simp only [List.mem_append, List.mem_singleton, List.mem_cons]
              tauto
            rw [hurls, firstSeen, if_neg hu, hcg, List.append_assoc,
              List.singleton_append]
          have hlen : K.length + 1 = (K ++ [u]).length := by simp
          rw [hlen]
          have ih' := ih (K ++ [u])
          rw [ih']
          have hpos2 : posOf u ((K ++ [u]) ++ firstSeen (K ++ [u]) (linkUrls rest)) + 1 =
              (K ++ [u]).length := by
            rw [posOf_append_of_mem _ (by simp), posOf_append_of_not_mem _ hu]
            simp [posOf]
          simp only [renderWith, hfrag, Bool.false_eq_true, if_false, hL]
          rw [hpos2]

theorem enum1From_length :
    ∀ (K : List String) (n : Nat), (enum1From n K).length = K.length := by
  intro K
  induction K with
  | nil => intro n; rfl
  | cons v vs ih => intro n; simp [enum1From, ih (n + 1)]

theorem map_snd_enum1From :
    ∀ (K : List String) (n : Nat),
      (enum1From n K).map Prod.snd = List.range' (n + 1) K.length := by
  intro K
  induction K with
  | nil => intro n; simp [enum1From]
  | cons v vs ih =>
    intro n
    simp [enum1From, ih (n + 1), List.range'_succ]

theorem map_fst_enum1From :
    ∀ (K : List String) (n : Nat), (enum1From n K).map Prod.fst = K := by
  intro K
  induction K with
  | nil => intro n; simp [enum1From]
  | cons v vs ih => intro n; simp [enum1From, ih (n + 1)]

theorem sort_enum1From :
    ∀ (K : List String) (n : Nat),
      stableSortBy (fun a b => a.2 ≤ b.2) (enum1From n K) = enum1From n K := by
  intro K
  induction K with
  | nil => intro n; simp [enum1From, stableSortBy]
  | cons v vs ih =>
    intro n
    simp only [enum1From, stableSortBy, ih (n + 1)]
    cases vs with
    | nil => simp [enum1From, insertSortedBy]
    | cons w ws =>
      simp only [enum1From, insertSortedBy]
      rw [if_pos]
      simp

theorem runSub_fragmentOnly_state :
    ∀ (segs : List Seg) (st : CiteState),
      (∀ s ∈ segs, fragmentOnlySeg s) → (runSub segs st).2 = st := by
  intro segs
  induction segs with
  | nil => intro st _; rfl
  | cons s rest ih =>
    intro st h
    cases s with
    | raw c =>
      simp only [runSub]
      exact ih st (fun x hx => h x (List.mem_cons_of_mem _ hx))
    | link t u =>
      have hf : pyStartsWith u "#" := by
        simpa [fragmentOnlySeg] using h (Seg.link t u) (List.mem_cons_self _ _)
      simp only [runSub, replace_link, if_pos hf]
      exact ih st (fun x hx => h x (List.mem_cons_of_mem _ hx))

/-- C3: for every markdown input, the `urls` dict built by
`add_citations` carries the numbers `1, 2, 3, …` in insertion order
(strictly increasing from 1), keyed by exactly the distinct non-image,
non-fragment link targets in first-encounter order; sorting its entries
by assigned number (the references-block order) is the identity, so the
`[N] URL` lines list each distinct URL exactly once, ordered by number;
the rewritten text equals a rendering in which every occurrence of a URL
— first or repeated — uses the number assigned at its first encounter;
and the `a.com, b.com, a.com` scenario produces markers `[1]`, `[2]`,
`[1]` with exactly the two reference entries. -/
theorem c3_citation_numbering (md : String) :
    ((runSub (segmentsOf md) ⟨[], 0⟩).2.urls.map Prod.snd =
        List.range' 1 ((runSub (segmentsOf md) ⟨[], 0⟩).2.urls.length)) ∧
    ((runSub (segmentsOf md) ⟨[], 0⟩).2.urls.map Prod.fst =
        firstSeen [] (linkUrls (segmentsOf md))) ∧
    (stableSortBy (fun a b => a.2 ≤ b.2) (runSub (segmentsOf md) ⟨[], 0⟩).2.urls =
        (runSub (segmentsOf md) ⟨[], 0⟩).2.urls) ∧
    ((runSub (segmentsOf md) ⟨[], 0⟩).1 =
        renderWith (fun u => posOf u (firstSeen [] (linkUrls (segmentsOf md))) + 1)
          (segmentsOf md)) ∧
    (add_citations "See [x](https://a.com) and [y](https://b.com) and [z](https://a.com)" =
        ("See x [1] and y [2] and z [1]",
          "\n## References\n\n[1] https://a.com\n[2] https://b.com")) := by
  have hrs := runSub_spec (segmentsOf md) []
  have hinit : (⟨enum1From 0 [], ([] : List String).length⟩ : CiteState) = ⟨[], 0⟩ := rfl
  rw [hinit] at hrs
  simp only [List.nil_append] at hrs
  refine ⟨?_, ?_, ?_, ?_, by decide⟩
  · rw [hrs]
    simp only
    rw [map_snd_enum1From, enum1From_length]
  · rw [hrs]
    exact map_fst_enum1From _ 0
  · rw [hrs]
    exact sort_enum1From _ 0
  · rw [hrs]

/-- C7 (counterexample): the citation engine is not idempotent on its
own output: for `x = "[a](u)(x)"` the first pass yields `"a [1](x)"`, in
which `[1](x)` re-parses as an inline link, so the second pass rewrites
the text to `"a 1 [1]"` and emits a non-empty references block. -/
theorem c7_not_idempotent :
    add_citations ((add_citations "[a](u)(x)").1) ≠
      (((add_citations "[a](u)(x)").1), "") := by
  decide

/-- C7 (amended): the second application is a no-op on any text whose
inline-link matches all target fragments (URLs starting `#`) — in
particular on any text with no remaining `[text](url)` syntax at all —
returning the input unchanged with an empty references block.  On
general outputs of `add_citations` this can fail (see the
counterexample): a citation marker directly followed by a parenthesized
group re-parses as a link. -/
theorem c7_noop_on_fragment_only (y : String)
    (h : ∀ s ∈ segmentsOf y, fragmentOnlySeg s) :
    add_citations y = (y, "") := by
  by_cases hy : y = ""
  · subst hy; rfl
  · unfold add_citations
    rw [if_neg hy]
    have hst := runSub_fragmentOnly_state (segmentsOf y) ⟨[], 0⟩ h
    simp [hst]

/-- C7 (witness): the no-op theorem at a concrete fragment-only input. -/
theorem c7_noop_witness :
    add_citations "go [here](#top) now" = ("go [here](#top) now", "") :=
  c7_noop_on_fragment_only "go [here](#top) now" (by decide)

theorem takeWhile_append_all {α : Type} (p : α → Bool) (l1 l2 : List α)
    (h : l1.all p = true) : (l1 ++ l2).takeWhile p = l1 ++ l2.takeWhile p := by
  induction l1 with
  | nil => simp
  | cons x xs ih =>
    simp only [List.all_cons, Bool.and_eq_true] at h
    simp [List.takeWhile_cons, h.1, ih h.2]

theorem dropWhile_append_all {α : Type} (p : α → Bool) (l1 l2 : List α)
    (h : l1.all p = true) : (l1 ++ l2).dropWhile p = l2.dropWhile p := by
  induction l1 with
  | nil => simp
  | cons x xs ih =>
    simp only [List.all_cons, Bool.and_eq_true] at h
    simp [List.dropWhile_cons, h.1, ih h.2]

theorem takeWhile_append_stop {α : Type} (p : α → Bool) (l1 l2 : List α)
    (h : l1.all p = false) : (l1 ++ l2).takeWhile p = l1.takeWhile p := by
  induction l1 with
  | nil => simp at h
  | cons x xs ih =>
    by_cases hx : p x
    · simp only [List.all_cons, hx, Bool.true_and] at h
      simp [List.takeWhile_cons, hx, ih h]
    · simp only [Bool.not_eq_true] at hx
      simp [List.takeWhile_cons, hx]

theorem dropWhile_append_stop {α : Type} (p : α → Bool) (l1 l2 : List α)
    (h : l1.all p = false) : (l1 ++ l2).dropWhile p = l1.dropWhile p ++ l2 := by
  induction l1 with
  | nil => simp at h
  | cons x xs ih =>
    by_cases hx : p x
    · simp only [List.all_cons, hx, Bool.true_and] at h
      simp [List.dropWhile_cons, hx, ih h]
    · simp only [Bool.not_eq_true] at hx
      simp [List.dropWhile_cons, hx]

theorem head_of_dropWhile {α : Type} (p : α → Bool) :
    ∀ (cs : List α) (c : α) (rest : List α),
      cs.dropWhile p = c :: rest → p c = false := by
  intro cs
  induction cs with
  | nil => intro c rest h; simp [List.dropWhile] at h
  | cons x xs ih =>
    intro c rest h
    by_cases hx : p x
    · rw [List.dropWhile_cons, if_pos hx] at h
      exact ih c rest h
    · rw [List.dropWhile_cons, if_neg hx] at h
      cases h
      simpa using hx

theorem dropWhile_is_suffix {α : Type} (p : α → Bool) :
    ∀ (l : List α), ∃ pre, l = pre ++ l.dropWhile p := by
  intro l
  induction l with
  | nil => exact ⟨[], rfl⟩
  | cons x xs ih =>
    by_cases hx : p x
    · obtain ⟨pre, hpre⟩ := ih
      refine ⟨x :: pre, ?_⟩
      rw [List.dropWhile_cons, if_pos hx, List.cons_append, ← hpre]
    · exact ⟨[], by rw [List.dropWhile_cons, if_neg hx]; simp⟩

theorem pyStripChars_prefix :
    ∀ cs : List Char, ∃ post, pyStripChars cs ++ post = cs.dropWhile isPySpace := by
  intro cs
  obtain ⟨pre, hpre⟩ := dropWhile_is_suffix isPySpace (cs.dropWhile isPySpace).reverse
  refine ⟨pre.reverse, ?_⟩
  unfold pyStripChars
  have := congrArg List.reverse hpre
  simpa using this.symm

theorem pyStripChars_head_not_space (cs : List Char) (c : Char) (rest : List Char)
    (h : pyStripChars cs = c :: rest) : isPySpace c = false := by
  obtain ⟨post, hpost⟩ := pyStripChars_prefix cs
  rw [h, List.cons_append] at hpost
  exact head_of_dropWhile isPySpace cs c (rest ++ post) hpost.symm

theorem pyStripChars_subset (cs : List Char) (c : Char)
    (h : c ∈ pyStripChars cs) : c ∈ cs := by
  unfold pyStripChars at h
  rw [List.mem_reverse] at h
  have h1 : c ∈ (cs.dropWhile isPySpace).reverse := (List.dropWhile_sublist _).subset h
  rw [List.mem_reverse] at h1
  exact (List.dropWhile_sublist _).subset h1

theorem pyStripChars_head_keep (c : Char) (cs : List Char)
    (hc : isPySpace c = false) : ∃ t, pyStripChars (c :: cs) = c :: t := by
  have hne : pyStripChars (c :: cs) ≠ [] := by
    unfold pyStripChars
    simp only [ne_eq, List.reverse_eq_nil_iff, List.dropWhile_eq_nil_iff,
      List.mem_reverse, List.dropWhile_cons, hc, Bool.false_eq_true, if_false]
    intro hall
    have := hall c (by simp)
    simp [hc] at this
  obtain ⟨post, hpost⟩ := pyStripChars_prefix (c :: cs)
  rw [List.dropWhile_cons, if_neg (by simp [hc])] at hpost
  cases hs : pyStripChars (c :: cs) with
  | nil => exact absurd hs hne
  | cons c' t =>
    rw [hs, List.cons_append] at hpost
    cases hpost
    exact ⟨t, rfl⟩

theorem pyJoin_cons_data (sep s : String) (ss : List String) :
    ∃ X, (pyJoin sep (s :: ss)).data = s.data ++ X := by
  cases ss with
  | nil => exact ⟨[], by simp [pyJoin]⟩
  | cons s2 rest =>
    refine ⟨sep.data ++ (pyJoin sep (s2 :: rest)).data, ?_⟩
    show (s ++ sep ++ pyJoin sep (s2 :: rest)).data = _
    rw [String.data_append, String.data_append, List.append_assoc]

theorem pyJoin_data_mem (sep : String) :
    ∀ (ss : List String) (c : Char), c ∈ (pyJoin sep ss).data →
      c ∈ sep.data ∨ ∃ s ∈ ss, c ∈ s.data := by
  intro ss
  induction ss with
  | nil => intro c h; simp [pyJoin] at h
  | cons s rest ih =>
    intro c h
    cases rest with
    | nil =>
      simp only [pyJoin] at h
      exact Or.inr ⟨s, by simp, h⟩
    | cons s2 r2 =>
      have hdata : (pyJoin sep (s :: s2 :: r2)).data =
          s.data ++ sep.data ++ (pyJoin sep (s2 :: r2)).data := by
        show (s ++ sep ++ pyJoin sep (s2 :: r2)).data = _
        rw [String.data_append, String.data_append]
      rw [hdata] at h
      simp only [List.append_assoc, List.mem_append] at h
      rcases h with h | h | h
      · exact Or.inr ⟨s, by simp, h⟩
      · exact Or.inl h
      · rcases ih c h with h' | ⟨s', hs', hc'⟩
        · exact Or.inl h'
        · exact Or.inr ⟨s', by simp [hs'], hc'⟩

theorem mem_takeWhile_pred {α : Type} (p : α → Bool) :
    ∀ (l : List α) (a : α), a ∈ l.takeWhile p → p a = true := by
  intro l
  induction l with
  | nil => intro a h; simp [List.takeWhile] at h
  | cons x xs ih =>
    intro a h
    by_cases hx : p x
    · rw [List.takeWhile_cons, if_pos hx] at h
      rcases List.mem_cons.mp h with rfl | h'
      · exact hx
      · exact ih a h'
    · rw [List.takeWhile_cons, if_neg hx] at h
      simp at h

theorem isBareHeading_some (l level : String) (h : isBareHeading l = some level) :
    level.data ≠ [] ∧ level.data.all (· = '#') ∧
      (l.data.dropWhile (· = '#')).all isPySpace = true := by
  unfold isBareHeading at h
  dsimp only at h
  split_ifs at h with hcond
  simp only [Option.some.injEq] at h
  subst h
  refine ⟨hcond.1, ?_, by simpa using hcond.2.2⟩
  simp only [List.all_eq_true]
  intro c hc
  exact mem_takeWhile_pred _ _ c hc

theorem eligible_strip_head (l : String) (h : eligibleFragment l = true) :
    ∃ c t, (pyStrip l).data = c :: t ∧ isPySpace c = false ∧ c ≠ '#' := by
  unfold eligibleFragment at h
  simp only [Bool.and_eq_true, Bool.not_eq_true'] at h
  obtain ⟨⟨⟨⟨⟨⟨⟨⟨hne, hhash⟩, _⟩, _⟩, _⟩, _⟩, _⟩, _⟩, _⟩ := h
  cases hd : (pyStrip l).data with
  | nil => rw [hd] at hne; simp at hne
  | cons c t =>
    refine ⟨c, t, rfl, ?_, ?_⟩
    · exact pyStripChars_head_not_space l.data c t hd
    · intro hc
      subst hc
      rw [pyStartsWith, hd] at hhash
      simp [List.isPrefixOf] at hhash

theorem formed_heading_not_bare_not_eligible (level f0 : String) (fr : List String)
    (hlvl1 : level.data ≠ []) (hlvl2 : level.data.all (· = '#'))
    (c : Char) (t : List Char) (hf0 : f0.data = c :: t)
    (hcsp : isPySpace c = false) (_hch : c ≠ '#') :
    isBareHeading (level ++ " " ++ pyJoin " " (f0 :: fr)) = none ∧
      eligibleFragment (level ++ " " ++ pyJoin " " (f0 :: fr)) = false := by
  obtain ⟨X, hX⟩ := pyJoin_cons_data " " f0 fr
  have hdata : (level ++ " " ++ pyJoin " " (f0 :: fr)).data =
      level.data ++ ' ' :: (c :: (t ++ X)) := by
    rw [String.data_append, String.data_append, hX, hf0]
    have hsp : (" " : String).data = [' '] := rfl
    rw [hsp]
    simp [List.append_assoc]
  have hhash : level.data.all (fun x => decide (x = '#')) = true := hlvl2
  constructor
  · unfold isBareHeading
    rw [hdata]
    rw [dropWhile_append_all _ _ _ hhash]
    rw [if_neg]
    intro hcond
    have hall := hcond.2.2
    rw [List.dropWhile_cons, if_neg (by simp)] at hall
    simp only [List.all_cons, Bool.and_eq_true] at hall
    rw [hcsp] at hall
    exact absurd hall.2.1 (by simp)
  · have hlvlhead : ∃ hr, level.data = '#' :: hr := by
      cases hl : level.data with
      | nil => exact absurd hl hlvl1
      | cons hc hr =>
        rw [hl] at hlvl2
        simp only [List.all_cons, Bool.and_eq_true] at hlvl2
        have : hc = '#' := of_decide_eq_true hlvl2.1
        exact ⟨hr, by rw [this]⟩
    obtain ⟨hr, hlvl⟩ := hlvlhead
    have hdata' : (level ++ " " ++ pyJoin " " (f0 :: fr)).data =
        '#' :: (hr ++ ' ' :: (c :: (t ++ X))) := by
      rw [hdata, hlvl]
      rfl
    obtain ⟨t', ht'⟩ := pyStripChars_head_keep '#'
      (hr ++ ' ' :: (c :: (t ++ X))) (by decide)
    have hss : pyStartsWith (pyStrip (level ++ " " ++ pyJoin " " (f0 :: fr))) "#" = true := by
      unfold pyStartsWith pyStrip
      rw [show (String.mk (pyStripChars (level ++ " " ++ pyJoin " " (f0 :: fr)).data)).data
          = pyStripChars (level ++ " " ++ pyJoin " " (f0 :: fr)).data from rfl]
      rw [hdata', ht']
      simp [List.isPrefixOf]
    unfold eligibleFragment
    dsimp only
    rw [hss]
    simp

theorem dropWhile_len_le {α : Type} (p : α → Bool) (l : List α) :
    (l.dropWhile p).length ≤ l.length := by
  induction l with
  | nil => simp [List.dropWhile]
  | cons x xs ih =>
    by_cases h : p x
    · rw [List.dropWhile_cons, if_pos h]
      exact le_trans ih (Nat.le_succ _)
    · rw [List.dropWhile_cons, if_neg h]

theorem fixLines_nil : fixLines [] = [] := by
  simp [fixLines]

theorem fixLines_cons_none (l : String) (rest : List String)
    (h : isBareHeading l = none) : fixLines (l :: rest) = l :: fixLines rest := by
  rw [fixLines, h]

theorem fixLines_cons_some_empty (l : String) (rest : List String) (level : String)
    (hb : isBareHeading l = some level)
    (hf : ((rest.takeWhile eligibleFragment).map pyStrip).isEmpty = true) :
    fixLines (l :: rest) = l :: fixLines rest := by
  rw [fixLines, hb]
  simp only [hf, if_true]

theorem fixLines_cons_some_frags (l : String) (rest : List String) (level : String)
    (hb : isBareHeading l = some level)
    (hf : ((rest.takeWhile eligibleFragment).map pyStrip).isEmpty = false) :
    fixLines (l :: rest) =
      (level ++ " " ++ pyJoin " " ((rest.takeWhile eligibleFragment).map pyStrip)) ::
        fixLines (rest.dropWhile eligibleFragment) := by
  rw [fixLines, hb]
  simp only [hf, Bool.false_eq_true, if_false]

theorem formed_of_frags (l : String) (rest : List String) (level : String)
    (hb : isBareHeading l = some level)
    (hf : ((rest.takeWhile eligibleFragment).map pyStrip).isEmpty = false) :
    isBareHeading
        (level ++ " " ++ pyJoin " " ((rest.takeWhile eligibleFragment).map pyStrip)) =
        none ∧
      eligibleFragment
        (level ++ " " ++ pyJoin " " ((rest.takeWhile eligibleFragment).map pyStrip)) =
        false := by
  cases htw : rest.takeWhile eligibleFragment with
  | nil => rw [htw] at hf; simp at hf
  | cons l0 ls0 =>
    have hel : eligibleFragment l0 = true := by
      have : l0 ∈ rest.takeWhile eligibleFragment := by rw [htw]; simp
      exact mem_takeWhile_pred _ _ l0 this
    obtain ⟨c, t, hf0, hcsp, hch⟩ := eligible_strip_head l0 hel
    obtain ⟨hlvl1, hlvl2, _⟩ := isBareHeading_some l level hb
    have := formed_heading_not_bare_not_eligible level (pyStrip l0)
      (ls0.map pyStrip) hlvl1 hlvl2 c t hf0 hcsp hch
    simpa using this

theorem fixLines_head_not_eligible (l : String) (rest : List String)
    (h : eligibleFragment l = false) :
    ∃ h0 t0, fixLines (l :: rest) = h0 :: t0 ∧ eligibleFragment h0 = false := by
  cases hb : isBareHeading l with
  | none => exact ⟨l, fixLines rest, fixLines_cons_none l rest hb, h⟩
  | some level =>
    cases hf : ((rest.takeWhile eligibleFragment).map pyStrip).isEmpty with
    | true => exact ⟨l, fixLines rest, fixLines_cons_some_empty l rest level hb hf, h⟩
    | false =>
      refine ⟨_, _, fixLines_cons_some_frags l rest level hb hf, ?_⟩
      exact (formed_of_frags l rest level hb hf).2

theorem takeWhile_fixLines_empty (rest : List String)
    (hf : rest.takeWhile eligibleFragment = []) :
    (fixLines rest).takeWhile eligibleFragment = [] := by
  cases rest with
  | nil => rw [fixLines_nil]; rfl
  | cons r rs =>
    have hr : eligibleFragment r = false := by
      by_cases h : eligibleFragment r
      · rw [List.takeWhile_cons, if_pos h] at hf
        exact absurd hf (by simp)
      · simpa using h
    obtain ⟨h0, t0, heq, hel0⟩ := fixLines_head_not_eligible r rs hr
    rw [heq, List.takeWhile_cons, if_neg (by simp [hel0])]

/-- Idempotence of the line-scanning loop. -/
theorem fixLines_idem : ∀ (ls : List String), fixLines (fixLines ls) = fixLines ls
  | [] => by simp [fixLines_nil]
  | l :: rest => by
    cases hb : isBareHeading l with
    | none =>
      rw [fixLines_cons_none l rest hb, fixLines_cons_none l (fixLines rest) hb,
        fixLines_idem rest]
    | some level =>
      cases hf : ((rest.takeWhile eligibleFragment).map pyStrip).isEmpty with
      | true =>
        rw [fixLines_cons_some_empty l rest level hb hf]
        have htw : rest.takeWhile eligibleFragment = [] := by
          cases htw' : rest.takeWhile eligibleFragment with
          | nil => rfl
          | cons a b => rw [htw'] at hf; simp at hf
        have hemp : (((fixLines rest).takeWhile eligibleFragment).map pyStrip).isEmpty
            = true := by
          rw [takeWhile_fixLines_empty rest htw]
          rfl
        rw [fixLines_cons_some_empty l (fixLines rest) level hb hemp,
          fixLines_idem rest]
      | false =>
        rw [fixLines_cons_some_frags l rest level hb hf]
        rw [fixLines_cons_none _ _ (formed_of_frags l rest level hb hf).1]
        rw [fixLines_idem (rest.dropWhile eligibleFragment)]
termination_by ls => ls.length
decreasing_by
  all_goals first
  | (simp only [List.length_cons]
     exact Nat.lt_succ_of_le (dropWhile_len_le _ _))
  | simp

theorem fixLines_ne_nil (l : String) (rest : List String) :
    fixLines (l :: rest) ≠ [] := by
  cases hb : isBareHeading l with
  | none => rw [fixLines_cons_none l rest hb]; simp
  | some level =>
    cases hf : ((rest.takeWhile eligibleFragment).map pyStrip).isEmpty with
    | true => rw [fixLines_cons_some_empty l rest level hb hf]; simp
    | false => rw [fixLines_cons_some_frags l rest level hb hf]; simp

theorem fixLines_no_newline :
    ∀ (ls : List String), (∀ l ∈ ls, '\n' ∉ l.data) →
      ∀ l' ∈ fixLines ls, '\n' ∉ l'.data
  | [] => by intro _ l' hl'; rw [fixLines_nil] at hl'; simp at hl'
  | l :: rest => by
    intro h l' hl'
    have hrest : ∀ x ∈ rest, '\n' ∉ x.data := by
      intro x hx
      exact h x (List.mem_cons_of_mem _ hx)
    cases hb : isBareHeading l with
    | none =>
      rw [fixLines_cons_none l rest hb] at hl'
      rcases List.mem_cons.mp hl' with rfl | hl''
      · exact h l' (List.mem_cons_self _ _)
      · exact fixLines_no_newline rest hrest l' hl''
    | some level =>
      cases hf : ((rest.takeWhile eligibleFragment).map pyStrip).isEmpty with
      | true =>
        rw [fixLines_cons_some_empty l rest level hb hf] at hl'
        rcases List.mem_cons.mp hl' with rfl | hl''
        · exact h l' (List.mem_cons_self _ _)
        · exact fixLines_no_newline rest hrest l' hl''
      | false =>
        rw [fixLines_cons_some_frags l rest level hb hf] at hl'
        rcases List.mem_cons.mp hl' with rfl | hl''
        · intro hmem
          rw [String.data_append, String.data_append] at hmem
          simp only [List.mem_append] at hmem
          rcases hmem with (hmem | hmem) | hmem
          · obtain ⟨_, hlvl2, _⟩ := isBareHeading_some l level hb
            have := List.all_eq_true.mp hlvl2 '\n' hmem
            simp at this
          · exact absurd hmem (by decide)
          · rcases pyJoin_data_mem " " _ '\n' hmem with hsep | ⟨s, hs, hcs⟩
            · exact absurd hsep (by decide)
            · obtain ⟨l'', hl''mem, rfl⟩ := List.mem_map.mp hs
              have hl''rest : l'' ∈ rest :=
                (List.takeWhile_sublist _).subset hl''mem
              have : '\n' ∈ l''.data := pyStripChars_subset l''.data '\n' hcs
              exact hrest l'' hl''rest this
        · have hsub : ∀ x ∈ rest.dropWhile eligibleFragment, '\n' ∉ x.data := by
            intro x hx
            exact hrest x ((List.dropWhile_sublist _).subset hx)
          exact fixLines_no_newline (rest.dropWhile eligibleFragment) hsub l' hl''
termination_by ls => ls.length
decreasing_by
  all_goals first
  | (simp only [List.length_cons]
     exact Nat.lt_succ_of_le (dropWhile_len_le _ _))
  | simp

theorem splitOnNewline_ne_nil : ∀ cs : List Char, splitOnNewline cs ≠ [] := by
  intro cs
  cases cs with
  | nil => simp [splitOnNewline]
  | cons c rest =>
    rw [splitOnNewline]
    by_cases h : c = '\n' <;> simp [h]

theorem splitOnNewline_no_newline :
    ∀ (cs : List Char) (l : List Char), l ∈ splitOnNewline cs → '\n' ∉ l := by
  intro cs
  induction cs with
  | nil =>
    intro l hl
    rw [splitOnNewline] at hl
    simp only [List.mem_singleton] at hl
    subst hl
    simp
  | cons c rest ih =>
    intro l hl
    rw [splitOnNewline] at hl
    by_cases hc : c = '\n'
    · rw [if_pos hc] at hl
      rcases List.mem_cons.mp hl with rfl | hl'
      · simp
      · exact ih l hl'
    · rw [if_neg hc] at hl
      rcases List.mem_cons.mp hl with rfl | hl'
      · intro hmem
        rcases List.mem_cons.mp hmem with he | hmem'
        · exact hc he.symm
        · cases hr : splitOnNewline rest with
          | nil => exact splitOnNewline_ne_nil rest hr
          | cons a b =>
            rw [hr] at hmem'
            simp only [List.headD_cons] at hmem'
            exact ih a (by rw [hr]; simp) hmem'
      · have : l ∈ splitOnNewline rest := by
          cases hr : splitOnNewline rest with
          | nil => exact absurd hr (splitOnNewline_ne_nil rest)
          | cons a b =>
            rw [hr] at hl'
            simp only [List.tail_cons] at hl'
            exact List.mem_cons_of_mem _ hl'
        exact ih l this

theorem splitOnNewline_of_no_newline :
    ∀ cs : List Char, '\n' ∉ cs → splitOnNewline cs = [cs] := by
  intro cs
  induction cs with
  | nil => intro _; rfl
  | cons c rest ih =>
    intro h
    have hc : ¬ (c = '\n') := fun he => h (by simp [he])
    have hrest : '\n' ∉ rest := fun hm => h (List.mem_cons_of_mem _ hm)
    rw [splitOnNewline, if_neg hc, ih hrest]
    rfl

theorem splitOnNewline_append_newline :
    ∀ (l cs : List Char), '\n' ∉ l →
      splitOnNewline (l ++ '\n' :: cs) = l :: splitOnNewline cs := by
  intro l
  induction l with
  | nil =>
    intro cs _
    rw [List.nil_append, splitOnNewline, if_pos rfl]
  | cons c rest ih =>
    intro cs h
    have hc : ¬ (c = '\n') := fun he => h (by simp [he])
    have hrest : '\n' ∉ rest := fun hm => h (List.mem_cons_of_mem _ hm)
    rw [List.cons_append, splitOnNewline, if_neg hc, ih cs hrest]
    rfl

theorem split_pyJoin :
    ∀ ss : List String, ss ≠ [] → (∀ s ∈ ss, '\n' ∉ s.data) →
      splitOnNewline ((pyJoin "\n" ss).data) = ss.map String.data := by
  intro ss
  induction ss with
  | nil => intro h _; exact absurd rfl h
  | cons s rest ih =>
    intro _ h
    cases rest with
    | nil =>
      show splitOnNewline s.data = [s.data]
      exact splitOnNewline_of_no_newline s.data (h s (by simp))
    | cons s2 r2 =>
      have hdata : (pyJoin "\n" (s :: s2 :: r2)).data =
          s.data ++ '\n' :: (pyJoin "\n" (s2 :: r2)).data := by
        show (s ++ "\n" ++ pyJoin "\n" (s2 :: r2)).data = _
        rw [String.data_append, String.data_append]
        have : ("\n" : String).data = ['\n'] := rfl
        rw [this]
        simp
      rw [hdata, splitOnNewline_append_newline _ _ (h s (by simp))]
      rw [ih (by simp) (fun x hx => h x (List.mem_cons_of_mem _ hx))]
      rfl

/-- C8: the heading-linebreak repair pass is idempotent: applying
`fix_heading_linebreaks` twice in immediate succession equals applying
it once, for every markdown input. -/
theorem c8_fix_heading_linebreaks_idempotent (md : String) :
    fix_heading_linebreaks (fix_heading_linebreaks md) = fix_heading_linebreaks md := by
  unfold fix_heading_linebreaks
  have hnl : ∀ l ∈ (splitOnNewline md.data).map String.mk, '\n' ∉ l.data := by
    intro l hl
    obtain ⟨cs, hcs, rfl⟩ := List.mem_map.mp hl
    exact splitOnNewline_no_newline md.data cs hcs
  have hnl' : ∀ l ∈ fixLines ((splitOnNewline md.data).map String.mk), '\n' ∉ l.data :=
    fixLines_no_newline _ hnl
  have hne : fixLines ((splitOnNewline md.data).map String.mk) ≠ [] := by
    cases hsp : splitOnNewline md.data with
    | nil => exact absurd hsp (splitOnNewline_ne_nil md.data)
    | cons a b =>
      simp only [List.map_cons]
      exact fixLines_ne_nil _ _
  rw [split_pyJoin _ hne hnl']
  have hmkdata : ((fixLines ((splitOnNewline md.data).map String.mk)).map
        String.data).map String.mk =
      fixLines ((splitOnNewline md.data).map String.mk) := by
    rw [List.map_map]
    have : (String.mk ∘ String.data) = id := by
      funext s
      rfl
    rw [this, List.map_id]
  rw [hmkdata, fixLines_idem]

theorem plain_not_c0 (c : Char) (h : urlPlainChar c = true) :
    isC0orSpace c = false := by
  unfold isC0orSpace
  rw [decide_eq_false_iff_not]
  unfold urlPlainChar at h
  simp only [decide_eq_true_eq] at h
  omega

theorem plain_no_tabcrlf (c : Char) (h : urlPlainChar c = true) :
    isUnsafeUrlByte c = false := by
  unfold isUnsafeUrlByte
  rw [decide_eq_false_iff_not]
  rintro (rfl | rfl | rfl) <;> exact absurd h (by decide)

theorem cleanUrlChars_of_plain (cs : List Char) (h : cs.all urlPlainChar = true) :
    cleanUrlChars cs = cs := by
  unfold cleanUrlChars
  have hdw : cs.dropWhile isC0orSpace = cs := by
    cases cs with
    | nil => rfl
    | cons c rest =>
      simp only [List.all_cons, Bool.and_eq_true] at h
      rw [List.dropWhile_cons, if_neg (by rw [plain_not_c0 c h.1]; simp)]
  rw [hdw, List.filter_eq_self.mpr]
  intro a ha
  have := List.all_eq_true.mp h a ha
  rw [plain_no_tabcrlf a this]
  decide

theorem splitScheme_query_append (us qs : List Char) (_hqu : '?' ∉ us) :
    (splitScheme (us ++ '?' :: qs)).1 = (splitScheme us).1 ∧
    (splitScheme (us ++ '?' :: qs)).2 = (splitScheme us).2 ++ '?' :: qs := by
  unfold splitScheme
  dsimp only
  by_cases hc : ':' ∈ us
  · have hstop : us.all (· ≠ ':') = false := by
      cases hall : us.all (· ≠ ':') with
      | false => rfl
      | true =>
        have := List.all_eq_true.mp hall ':' hc
        simp at this
    rw [takeWhile_append_stop _ _ _ hstop, dropWhile_append_stop _ _ _ hstop]
    have hne : us.dropWhile (· ≠ ':') ≠ [] := by
      rw [ne_eq, List.dropWhile_eq_nil_iff]
      push_neg
      exact ⟨':', hc, by simp⟩
    by_cases hcond : us.takeWhile (· ≠ ':') ≠ [] ∧
        (us.takeWhile (· ≠ ':')).all isSchemeChar = true ∧
        isAsciiAlpha ((us.takeWhile (· ≠ ':')).headD ' ') = true
    · rw [if_pos ⟨List.mem_append_left _ hc, hcond.1, hcond.2.1, hcond.2.2⟩,
        if_pos ⟨hc, hcond.1, hcond.2.1, hcond.2.2⟩]
      refine ⟨rfl, ?_⟩
      cases hdu : us.dropWhile (· ≠ ':') with
      | nil => exact absurd hdu hne
      | cons d ds => simp
    · rw [if_neg (fun hfull => hcond ⟨hfull.2.1, hfull.2.2.1, hfull.2.2.2⟩),
        if_neg (fun hfull => hcond ⟨hfull.2.1, hfull.2.2.1, hfull.2.2.2⟩)]
      exact ⟨rfl, rfl⟩
  · have hall : us.all (· ≠ ':') = true := by
      rw [List.all_eq_true]
      intro x hx
      simp only [ne_eq, decide_eq_true_eq]
      intro he
      exact hc (he ▸ hx)
    have hfalse : ∀ (hmem : ':' ∈ us ++ '?' :: qs)
        (hallSch : ((us ++ '?' :: qs).takeWhile (· ≠ ':')).all isSchemeChar = true),
        False := by
      intro hmem hallSch
      by_cases hcq : ':' ∈ qs
      · have htw : (us ++ '?' :: qs).takeWhile (· ≠ ':') =
            us ++ '?' :: qs.takeWhile (· ≠ ':') := by
          rw [takeWhile_append_all _ _ _ hall, List.takeWhile_cons,
            if_pos (by simp)]
        have hqmem : '?' ∈ (us ++ '?' :: qs).takeWhile (· ≠ ':') := by
          rw [htw]
          exact List.mem_append_right _ (List.mem_cons_self _ _)
        exact absurd (List.all_eq_true.mp hallSch '?' hqmem) (by decide)
      · rcases List.mem_append.mp hmem with h1 | h1
        · exact hc h1
        · rcases List.mem_cons.mp h1 with h2 | h2
          · exact absurd h2 (by decide)
          · exact hcq h2
    split_ifs with h1 h2 h3
    · exact (hfalse h1.1 h1.2.2.1).elim
    · exact (hfalse h1.1 h1.2.2.1).elim
    · exact (hc h3.1).elim
    · exact ⟨rfl, rfl⟩

theorem splitNetloc_query_append (rs qs : List Char) :
    (splitNetloc (rs ++ '?' :: qs)).1 = (splitNetloc rs).1 ∧
    (splitNetloc (rs ++ '?' :: qs)).2 = (splitNetloc rs).2 ++ '?' :: qs := by
  unfold splitNetloc
  match rs with
  | [] =>
    rw [if_neg (by cases qs <;> simp), if_neg (by simp)]
    exact ⟨rfl, rfl⟩
  | [a] =>
    rw [List.cons_append, List.nil_append]
    rw [if_neg (by simp), if_neg (by simp)]
    exact ⟨rfl, rfl⟩
  | a :: b :: t =>
    rw [List.cons_append, List.cons_append]
    by_cases hab : a = '/' ∧ b = '/'
    · obtain ⟨rfl, rfl⟩ := hab
      rw [if_pos (by simp), if_pos (by simp)]
      simp only [List.drop_succ_cons, List.drop_zero]
      by_cases hstop : t.all (fun c => !isNetlocStop c) = true
      · rw [takeWhile_append_all _ _ _ hstop, dropWhile_append_all _ _ _ hstop]
        have h1 : ('?' :: qs).takeWhile (fun c => !isNetlocStop c) = [] := by
          rw [List.takeWhile_cons, if_neg (by decide)]
        have h2 : ('?' :: qs).dropWhile (fun c => !isNetlocStop c) = '?' :: qs := by
          rw [List.dropWhile_cons, if_neg (by decide)]
        have h3 : t.takeWhile (fun c => !isNetlocStop c) = t := by
          have := takeWhile_append_all (fun c => !isNetlocStop c) t [] hstop
          simpa using this
        have h4 : t.dropWhile (fun c => !isNetlocStop c) = [] := by
          rw [List.dropWhile_eq_nil_iff]
          intro x hx
          exact List.all_eq_true.mp hstop x hx
        rw [h1, h2, h3, h4]
        exact ⟨by simp, by simp⟩
      · have hstop' : t.all (fun c => !isNetlocStop c) = false := by
          cases h : t.all (fun c => !isNetlocStop c) with
          | false => rfl
          | true => exact absurd h hstop
        rw [takeWhile_append_stop _ _ _ hstop', dropWhile_append_stop _ _ _ hstop']
        exact ⟨rfl, rfl⟩
    · have hne : ¬ (a :: b :: (t ++ '?' :: qs)).take 2 = ['/', '/'] := by
        simp only [List.take_succ_cons, List.take_zero]
        intro hcontra
        simp only [List.cons.injEq] at hcontra
        exact hab ⟨hcontra.1, hcontra.2.1⟩
      have hne2 : ¬ (a :: b :: t).take 2 = ['/', '/'] := by
        simp only [List.take_succ_cons, List.take_zero]
        intro hcontra
        simp only [List.cons.injEq] at hcontra
        exact hab ⟨hcontra.1, hcontra.2.1⟩
      rw [if_neg hne, if_neg hne2]
      exact ⟨rfl, rfl⟩

theorem splitFragment_of_no_hash (cs : List Char) (h : '#' ∉ cs) :
    splitFragment cs = (cs, "") := by
  unfold splitFragment
  rw [if_neg h]

theorem splitQuery_of_no_q (cs : List Char) (h : '?' ∉ cs) :
    splitQuery cs = (cs, "") := by
  unfold splitQuery
  rw [if_neg h]

theorem splitQuery_append_q (l qs : List Char) (h : '?' ∉ l) :
    splitQuery (l ++ '?' :: qs) = (l, String.mk qs) := by
  unfold splitQuery
  rw [if_pos (List.mem_append_right _ (List.mem_cons_self _ _))]
  have hall : l.all (· ≠ '?') = true := by
    rw [List.all_eq_true]
    intro x hx
    simp only [ne_eq, decide_eq_true_eq]
    intro he
    exact h (he ▸ hx)
  rw [takeWhile_append_all _ _ _ hall, dropWhile_append_all _ _ _ hall]
  have h1 : ('?' :: qs).takeWhile (· ≠ '?') = [] := by
    rw [List.takeWhile_cons, if_neg (by simp)]
  have h2 : ('?' :: qs).dropWhile (· ≠ '?') = '?' :: qs := by
    rw [List.dropWhile_cons, if_neg (by simp)]
  rw [h1, h2]
  simp

theorem splitScheme_snd_subset (cs : List Char) (c : Char)
    (h : c ∈ (splitScheme cs).2) : c ∈ cs := by
  unfold splitScheme at h
  dsimp only at h
  split_ifs at h
  · exact ((List.dropWhile_sublist _).subset (List.tail_sublist _ |>.subset h))
  · exact h

theorem splitNetloc_snd_subset (cs : List Char) (c : Char)
    (h : c ∈ (splitNetloc cs).2) : c ∈ cs := by
  unfold splitNetloc at h
  split_ifs at h
  · exact (List.drop_sublist _ _).subset ((List.dropWhile_sublist _).subset h)
  · exact h

theorem urlsplit_query_append (u q : String)
    (hu : u.data.all urlPlainChar = true) (hq : q.data.all urlPlainChar = true)
    (hhu : '#' ∉ u.data) (hhq : '#' ∉ q.data) (hqu : '?' ∉ u.data) :
    urlsplit (u ++ "?" ++ q) = { urlsplit u with query := String.mk q.data } := by
  have hdata : (u ++ "?" ++ q).data = u.data ++ '?' :: q.data := by
    rw [String.data_append, String.data_append]
    have : ("?" : String).data = ['?'] := rfl
    rw [this]
    simp
  have hplain : (u.data ++ '?' :: q.data).all urlPlainChar = true := by
    rw [List.all_append]
    simp only [List.all_cons, hu, hq, Bool.and_true, Bool.true_and]
    decide
  have hsch := splitScheme_query_append u.data q.data hqu
  have hq1 : '?' ∉ (splitScheme u.data).2 := by
    intro hmem
    exact hqu (splitScheme_snd_subset u.data '?' hmem)
  have hh1 : '#' ∉ (splitScheme u.data).2 := by
    intro hmem
    exact hhu (splitScheme_snd_subset u.data '#' hmem)
  have hnl := splitNetloc_query_append (splitScheme u.data).2 q.data
  have hq2 : '?' ∉ (splitNetloc (splitScheme u.data).2).2 := by
    intro hmem
    exact hq1 (splitNetloc_snd_subset _ '?' hmem)
  have hh2 : '#' ∉ (splitNetloc (splitScheme u.data).2).2 := by
    intro hmem
    exact hh1 (splitNetloc_snd_subset _ '#' hmem)
  have hh2' : '#' ∉ (splitNetloc (splitScheme u.data).2).2 ++ '?' :: q.data := by
    intro hmem
    rcases List.mem_append.mp hmem with h1 | h1
    · exact hh2 h1
    · rcases List.mem_cons.mp h1 with h2 | h2
      · exact absurd h2 (by decide)
      · exact hhq h2
  unfold urlsplit
  dsimp only
  rw [hdata, cleanUrlChars_of_plain _ hplain, cleanUrlChars_of_plain _ hu]
  rw [hsch.1, hsch.2, hnl.1, hnl.2]
  rw [splitFragment_of_no_hash _ hh2', splitFragment_of_no_hash _ hh2]
  dsimp only
  rw [splitQuery_append_q _ _ hq2, splitQuery_of_no_q _ hq2]

theorem urlparse_query_append (u q : String)
    (hu : u.data.all urlPlainChar = true) (hq : q.data.all urlPlainChar = true)
    (hhu : '#' ∉ u.data) (hhq : '#' ∉ q.data) (hqu : '?' ∉ u.data) :
    (urlparse (u ++ "?" ++ q)).scheme = (urlparse u).scheme ∧
    (urlparse (u ++ "?" ++ q)).netloc = (urlparse u).netloc ∧
    (urlparse (u ++ "?" ++ q)).path = (urlparse u).path := by
  have h := urlsplit_query_append u q hu hq hhu hhq hqu
  unfold urlparse
  rw [h]
  dsimp only
  by_cases hcond : (urlsplit u).scheme ∈ uses_params ∧ ';' ∈ (urlsplit u).path.data
  · rw [if_pos hcond, if_pos hcond]
    exact ⟨rfl, rfl, rfl⟩
  · rw [if_neg hcond, if_neg hcond]
    exact ⟨rfl, rfl, rfl⟩

theorem crawlLoopFetches_nodup (fetch : String → Option FetchResult) :
    ∀ (cands : List String) (mp : Int) (res : List FetchResult) (vis : List String),
      ((crawlLoopFetches fetch cands mp res vis).map _normalize_url).Nodup ∧
        ∀ n ∈ (crawlLoopFetches fetch cands mp res vis).map _normalize_url,
          n ∉ vis := by
  intro cands
  induction cands with
  | nil => intro mp res vis; simp [crawlLoopFetches]
  | cons url rest ih =>
    intro mp res vis
    by_cases hb : (res.length : Int) ≥ mp
    · simp [crawlLoopFetches, hb]
    · by_cases hv : _normalize_url url ∈ vis
      · simpa [crawlLoopFetches, hb, hv] using ih mp res vis
      · have hstep : ∀ (res' : List FetchResult),
            (((url :: crawlLoopFetches fetch rest mp res'
                (_normalize_url url :: vis)).map _normalize_url).Nodup ∧
              ∀ n ∈ (url :: crawlLoopFetches fetch rest mp res'
                (_normalize_url url :: vis)).map _normalize_url, n ∉ vis) := by
          intro res'
          obtain ⟨hnd, hdisj⟩ := ih mp res' (_normalize_url url :: vis)
          constructor
          · simp only [List.map_cons, List.nodup_cons]
            refine ⟨?_, hnd⟩
            intro hmem
            have := hdisj _ hmem
            simp at this
          · intro n hn
            simp only [List.map_cons, List.mem_cons] at hn
            rcases hn with rfl | hn'
            · exact hv
            · have := hdisj n hn'
              simp only [List.mem_cons, not_or] at this
              exact this.2
        cases hf : fetch url with
        | none =>
          have heq : crawlLoopFetches fetch (url :: rest) mp res vis =
              url :: crawlLoopFetches fetch rest mp res (_normalize_url url :: vis) := by
            simp [crawlLoopFetches, hb, hv, hf]
          rw [heq]
          exact hstep res
        | some r =>
          by_cases hs : r.status < 400
          · have heq : crawlLoopFetches fetch (url :: rest) mp res vis =
                url :: crawlLoopFetches fetch rest mp (res ++ [r])
                  (_normalize_url url :: vis) := by
              simp [crawlLoopFetches, hb, hv, hf, hs]
            rw [heq]
            exact hstep (res ++ [r])
          · have heq : crawlLoopFetches fetch (url :: rest) mp res vis =
                url :: crawlLoopFetches fetch rest mp res
                  (_normalize_url url :: vis) := by
              simp [crawlLoopFetches, hb, hv, hf, hs]
            rw [heq]
            exact hstep res

/-- C9: URL normalization reads only the scheme, host and path of a
parsed URL — so the query string (and parameters, and fragment) are
discarded, and two URLs that parse to the same scheme/host/path have
equal `NormalizedUrl`; appending `?query` to a clean query-free URL
does not change its `_normalize_url`; and `deep_crawl` never issues two
fetches whose URLs share one normalized form — once a normalization is
visited, the later equal-normalized candidate is skipped, never
fetched. -/
theorem c9_normalization_discards_query :
    (∀ u1 u2 : String,
        (urlparse u1).scheme = (urlparse u2).scheme →
        (urlparse u1).netloc = (urlparse u2).netloc →
        (urlparse u1).path = (urlparse u2).path →
        _normalize_url u1 = _normalize_url u2) ∧
    (∀ u q : String,
        u.data.all urlPlainChar = true → q.data.all urlPlainChar = true →
        '#' ∉ u.data → '#' ∉ q.data → '?' ∉ u.data →
        _normalize_url (u ++ "?" ++ q) = _normalize_url u) ∧
    (∀ (fetch : String → Option FetchResult) (anchorsOf : String → List String)
        (join : String → String → String) (s : String) (mp : Int)
        (pat : Option (String → Bool)),
        ((deepCrawlFetches fetch anchorsOf join s mp pat).map _normalize_url).Nodup) := by
  refine ⟨?_, ?_, ?_⟩
  · intro u1 u2 h1 h2 h3
    unfold _normalize_url
    dsimp only
    rw [h1, h2, h3]
  · intro u q hu hq hhu hhq hqu
    obtain ⟨h1, h2, h3⟩ := urlparse_query_append u q hu hq hhu hhq hqu
    unfold _normalize_url
    dsimp only
    rw [h1, h2, h3]
  · intro fetch anchorsOf join s mp pat
    unfold deepCrawlFetches
    cases hf : fetch s with
    | none => simp
    | some start_result =>
      dsimp only
      simp only [List.map_cons, List.nodup_cons]
      obtain ⟨hnd, hdisj⟩ := crawlLoopFetches_nodup fetch _ mp [start_result]
        [_normalize_url s]
      refine ⟨?_, hnd⟩
      intro hmem
      have := hdisj _ hmem
      simp at this

/-- C9 (witness): the query-append invariance at a concrete URL. -/
theorem c9_normalization_witness :
    _normalize_url ("http://example.com/a" ++ "?" ++ "b=1") =
      _normalize_url "http://example.com/a" :=
  c9_normalization_discards_query.2.1 "http://example.com/a" "b=1"
    (by decide) (by decide) (by decide) (by decide) (by decide)

end C2md
